import Mathlib

/-!
Verification of the job-listings cleaning and filtering pipeline.

The definitions below are a shallow embedding of the data-cleaning code in
`GUI.py` (salary normalization, location split, seniority extraction, skills
split, link deduplication, schema check, filter engine) and of
`determine_job_level` in `TOOLSGUI.py`.  Strings are modelled as Lean
`String`s, missing cells (`NaN`) as `none`, and numeric salary values as
rationals.  Regex-based extractions are modelled by explicit character
scanners that follow the Python `re` semantics of the concrete patterns used
in the source (`^([^,]+)`, `,\s*(\w+)$`, and the word-bounded seniority
alternation), restricted to ASCII text.
-/

namespace JobListings

/-- ASCII model of the regex class `\w`: letters, digits and underscore. -/
def isWordChar (c : Char) : Bool :=
  c.isAlphanum || c == '_'

/-- The whitespace characters recognised by Python `str.strip` and by the
regex class `\s` (space, tab, newline, carriage return, vertical tab,
form feed). -/
def pyIsSpace (c : Char) : Bool :=
  c == ' ' || c == '\t' || c == '\n' || c == '\r' || c == '\x0b' || c == '\x0c'

/-- Remove leading and trailing whitespace from a character list, as Python
`str.strip()` does. -/
def pyStripChars (l : List Char) : List Char :=
  ((l.dropWhile pyIsSpace).reverse.dropWhile pyIsSpace).reverse

/-- Python `str.strip()` on strings. -/
def pyStrip (s : String) : String :=
  String.mk (pyStripChars s.toList)

/-- Case-folding of a character code: ASCII upper-case letters are mapped to
their lower-case code, everything else is unchanged.  Used to model the
`re.IGNORECASE` flag. -/
def lowerNat (n : Nat) : Nat :=
  if 65 ≤ n ∧ n ≤ 90 then n + 32 else n

/-- Case-folded code of a character. -/
def charLower (c : Char) : Nat :=
  lowerNat c.toNat

/-- Case-folded character codes of a list, used to state case-insensitive
string equality. -/
def lowerList (l : List Char) : List Nat :=
  l.map charLower

/-- `df_final["Salary (USD)"].str.replace("[$,]", "", regex=True)`: remove
every dollar sign and comma from the salary text. -/
def removeDollarComma (s : String) : String :=
  String.mk (s.toList.filter (fun c => c != '$' && c != ','))

/-- Numeric value of a digit list (most significant first). -/
def digitsVal (l : List Char) : Nat :=
  l.foldl (fun a c => a * 10 + (c.toNat - 48)) 0

/-- Parse an unsigned decimal numeral, with an optional fractional part after
a single dot; any other residue is rejected.  This models the decimal forms
accepted by `pd.to_numeric` on cleaned salary strings (scientific notation is
not modelled; no claim depends on it). -/
def parseUnsigned (l : List Char) : Option ℚ :=
  let ip := l.takeWhile (fun c => c != '.')
  let rest := l.drop ip.length
  match rest with
  | [] =>
      if !ip.isEmpty && ip.all Char.isDigit then some ((digitsVal ip : ℚ)) else none
  | '.' :: fp =>
      if (!ip.isEmpty || !fp.isEmpty) && ip.all Char.isDigit && fp.all Char.isDigit
      then some ((digitsVal ip : ℚ) + (digitsVal fp : ℚ) / ((10 : ℚ) ^ fp.length))
      else none
  | _ => none

/-- `pd.to_numeric(..., errors="coerce")` on a string cell: strip surrounding
whitespace, allow an optional sign, parse the decimal residue; anything
non-numeric coerces to missing (`none`). -/
def pyToNumeric (s : String) : Option ℚ :=
  match pyStripChars s.toList with
  | '-' :: rest => (parseUnsigned rest).map (fun q => -q)
  | '+' :: rest => parseUnsigned rest
  | l => parseUnsigned l

/-- Lines 41-42 of `GUI.py`: the salary cell as a string has all `$` and `,`
characters removed and the residue is parsed numerically, coercing failures
to missing.  A missing raw cell stays missing (`astype(str)` turns `NaN`
into the non-numeric text `"nan"`). -/
def salaryUSD (raw : Option String) : Option ℚ :=
  match raw with
  | none => none
  | some s => pyToNumeric (removeDollarComma s)

/-- Line 46 of `GUI.py`, executed only when a `Skills` column is present:
`df_final["Location"].str.replace("-", "").str.strip()` — every dash is
removed from the location and surrounding whitespace is stripped.  Without a
`Skills` column the location is left untouched. -/
def cleanLocation (skillsPresent : Bool) (loc : String) : String :=
  if skillsPresent then pyStrip (String.mk (loc.toList.filter (fun c => c != '-')))
  else loc

/-- Line 55 of `GUI.py`: `str.extract(r'^([^,]+)')` — the maximal nonempty
prefix of non-comma characters; no match (empty prefix) yields missing. -/
def extractCity (loc : String) : Option String :=
  let p := loc.toList.takeWhile (fun c => c != ',')
  if p.isEmpty then none else some (String.mk p)

/-- Drop a single leading character when it is a newline.  Applied to the
reversed location text, this models the Python `$` anchor, which also
matches just before one trailing newline. -/
def stripOneNewline (l : List Char) : List Char :=
  match l with
  | '\n' :: t => t
  | _ => l

/-- Line 53 of `GUI.py`: `str.extract(r',\s*(\w+)$')` — a match exists
exactly when the text after the last comma is optional whitespace followed by
a nonempty run of word characters reaching the end; the captured group is
that word-character run.  Modelled by scanning the reversed character
list. -/
def extractCountry (loc : String) : Option String :=
  let rl := stripOneNewline loc.toList.reverse
  let w := rl.takeWhile isWordChar
  let rest := (rl.dropWhile isWordChar).dropWhile pyIsSpace
  if w.isEmpty then none
  else
    match rest with
    | ',' :: _ => some (String.mk w.reverse)
    | _ => none

/-- The five seniority keywords of line 54 of `GUI.py`, in alternation
order. -/
def seniorityKeywords : List String :=
  ["Senior", "Junior", "Intern", "Lead", "Manager"]

/-- Case-insensitive test that the first list is a prefix of the second. -/
def ciPrefix : List Char → List Char → Bool
  | [], _ => true
  | _ :: _, [] => false
  | k :: ks, c :: cs => (charLower k == charLower c) && ciPrefix ks cs

/-- Word-boundary test after a match of length `n` starting at `l`: the
character following the match must be absent or a non-word character. -/
def boundaryAfter (l : List Char) (n : Nat) : Bool :=
  match l.drop n with
  | [] => true
  | d :: _ => !isWordChar d

/-- Does keyword `kw` match at the current position (text `l`, preceding
character `prev`) with word boundaries on both sides, case-insensitively?
All keywords begin and end with letters, so `\b` holds exactly when the
neighbouring character is absent or a non-word character. -/
def keywordHere (prev : Option Char) (l : List Char) (kw : String) : Bool :=
  (match prev with
   | none => true
   | some p => !isWordChar p)
  && ciPrefix kw.toList l
  && boundaryAfter l kw.toList.length

/-- Scan of the title text for the leftmost word-bounded, case-insensitive
occurrence of a seniority keyword; at each position the alternatives are
tried in alternation order, and the matched text is returned in its original
case, exactly as `str.extract` returns the captured group. -/
def findSeniorityAux (prev : Option Char) : List Char → Option String
  | [] => none
  | c :: cs =>
      match seniorityKeywords.find? (fun kw => keywordHere prev (c :: cs) kw) with
      | some kw => some (String.mk ((c :: cs).take kw.toList.length))
      | none => findSeniorityAux (some c) cs

/-- Line 54 of `GUI.py`:
`str.extract(r'\b(Senior|Junior|Intern|Lead|Manager)\b', flags=re.IGNORECASE)`. -/
def extractSeniority (title : String) : Option String :=
  findSeniorityAux none title.toList

/-- Split a character list on every occurrence of the separator; empty pieces
are kept, as Python `str.split(sep)` does with an explicit separator. -/
def splitChar (sep : Char) : List Char → List (List Char)
  | [] => [[]]
  | c :: cs =>
      let r := splitChar sep cs
      if c = sep then [] :: r
      else
        match r with
        | [] => [[c]]
        | h :: t => (c :: h) :: t

/-- Rejoin the pieces of a split with the separator between them. -/
def joinSep (sep : Char) : List (List Char) → List Char
  | [] => []
  | [p] => p
  | p :: q :: r => p ++ sep :: joinSep sep (q :: r)

/-- Line 47 of `GUI.py`: `df_final["Skills"].str.split("·")` — the raw
skills text split on the middle dot, each piece kept verbatim. -/
def skillsSplit (s : String) : List String :=
  (splitChar '·' s.toList).map String.mk

/-- The derived `Skills` attribute: a missing skills cell stays missing,
otherwise the cell is split on the middle dot. -/
def skillsList (raw : Option String) : Option (List String) :=
  match raw with
  | none => none
  | some s => some (skillsSplit s)

/-- Lines 13-22 of `TOOLSGUI.py`: job level from the numeric experience
field.  A missing experience yields missing; otherwise fewer than 2 years is
Junior, at least 2 and fewer than 5 is Mid-Level, at least 5 is Senior (the
trailing `return None` of the source is unreachable for a real number and is
kept as the final fallback). -/
def determine_job_level (experience : Option ℚ) : Option String :=
  match experience with
  | none => none
  | some x =>
      if x < 2 then some "Junior"
      else if 2 ≤ x ∧ x < 5 then some "Mid-Level"
      else if 5 ≤ x then some "Senior"
      else none

/-- Projection of a Cleaned Record onto the attributes consulted by the
deduplication and filter stages of `GUI.py`: the `Link` key and the four
filterable attributes.  A `none` field models a missing (`NaN`) cell. -/
structure Record where
  link : Option String
  country : Option String
  city : Option String
  seniority : Option String
  salary : Option ℚ
deriving DecidableEq, Repr

/-- A Filter Spec as assembled from the sidebar widgets: one inclusion list
per attribute (empty list = no selection) and the inclusive salary range. -/
structure FilterSpec where
  countries : List String
  cities : List String
  seniorities : List String
  salaryLo : ℚ
  salaryHi : ℚ

/-- `Series.isin(selection)` on a possibly missing value: a missing value is
never a member. -/
def optIsin (v : Option String) (sel : List String) : Bool :=
  match v with
  | none => false
  | some s => sel.contains s

/-- The salary range test of lines 86-87 of `GUI.py`: a missing salary fails
both comparisons (pandas `NaN` comparisons are false), a present salary must
lie inclusively between the bounds. -/
def matchesSalary (v : Option ℚ) (lo hi : ℚ) : Bool :=
  match v with
  | none => false
  | some x => decide (lo ≤ x) && decide (x ≤ hi)

/-- Lines 79-87 of `GUI.py`: each inclusion filter is applied only when its
selection is nonempty, then the salary range filter is applied
unconditionally.  Each stage is a stable `filter`, preserving input
order. -/
def filterEngine (recs : List Record) (spec : FilterSpec) : List Record :=
  let r1 := if spec.countries.isEmpty then recs
            else recs.filter (fun r => optIsin r.country spec.countries)
  let r2 := if spec.cities.isEmpty then r1
            else r1.filter (fun r => optIsin r.city spec.cities)
  let r3 := if spec.seniorities.isEmpty then r2
            else r2.filter (fun r => optIsin r.seniority spec.seniorities)
  r3.filter (fun r => matchesSalary r.salary spec.salaryLo spec.salaryHi)

/-- The observed (non-missing) salaries of a record set, in order; this is
what `Series.min()` / `Series.max()` aggregate over, since pandas skips
`NaN`. -/
def observedSalaries (recs : List Record) : List ℚ :=
  recs.filterMap (fun r => r.salary)

/-- Minimum of a rational list, `none` on the empty list (pandas
`Series.min` over the observed values). -/
def listMin : List ℚ → Option ℚ
  | [] => none
  | x :: xs =>
      match listMin xs with
      | none => some x
      | some m => some (min x m)

/-- Maximum of a rational list, `none` on the empty list (pandas
`Series.max` over the observed values). -/
def listMax : List ℚ → Option ℚ
  | [] => none
  | x :: xs =>
      match listMax xs with
      | none => some x
      | some m => some (max x m)

/-- Scan underlying `drop_duplicates(subset=["Link"])` with the default
`keep="first"`: a record is kept exactly when its link key has not been seen
on an earlier record; pandas treats two `NaN` keys as duplicates of each
other, which `none = none` models. -/
def dropDupByLinkAux (seen : List (Option String)) : List Record → List Record
  | [] => []
  | r :: rs =>
      if r.link ∈ seen then dropDupByLinkAux seen rs
      else r :: dropDupByLinkAux (r.link :: seen) rs

/-- Line 48 of `GUI.py`: `df_final.drop_duplicates(subset=["Link"])`. -/
def dropDuplicatesByLink (recs : List Record) : List Record :=
  dropDupByLinkAux [] recs

/-- Lines 45-50 of `GUI.py`: the link-based deduplication runs only inside
the `if "Skills" in df.columns` branch; without a `Skills` column the record
set passes through unchanged. -/
def linkDedupStage (skillsPresent : Bool) (recs : List Record) : List Record :=
  if skillsPresent then dropDuplicatesByLink recs else recs

/-- A raw column: its header text and its cell values (`none` = null). -/
abbrev Column := String × List (Option String)

/-- Line 34 of `GUI.py`: the required column set. -/
def required_columns : List String :=
  ["Salary (USD)", "Location", "Job Title", "Company Name", "Link"]

/-- Lines 26-27 of `GUI.py`: `df.dropna(axis=1, how='all')` discards every
column whose cells are all null, then `df.columns.str.strip()` trims the
surviving headers.  These are the column names the schema check sees. -/
def keptColumnNames (t : List Column) : List String :=
  (t.filter (fun c => c.2.any (fun v => v.isSome))).map (fun c => pyStrip c.1)

/-- Lines 34-38 of `GUI.py`: the schema check fails with the exact set of
required columns not among the kept column names; it succeeds when that set
is empty. -/
def schemaCheck (t : List Column) : Except (List String) Unit :=
  let missing := required_columns.filter (fun r => decide (r ∉ keptColumnNames t))
  if missing.isEmpty then Except.ok () else Except.error missing

/-! Helper lemmas about the auxiliary list functions. -/

/-- The minimum of a list is empty exactly on the empty list. -/
theorem listMin_eq_none : ∀ (l : List ℚ), listMin l = none ↔ l = [] := by
  intro l
  cases l with
  | nil => simp [listMin]
  | cons x xs => cases h : listMin xs <;> simp [listMin, h]

/-- The maximum of a list is empty exactly on the empty list. -/
theorem listMax_eq_none : ∀ (l : List ℚ), listMax l = none ↔ l = [] := by
  intro l
  cases l with
  | nil => simp [listMax]
  | cons x xs => cases h : listMax xs <;> simp [listMax, h]

/-- The computed minimum is a lower bound for every member. -/
theorem listMin_le : ∀ (l : List ℚ) (m : ℚ), listMin l = some m → ∀ v ∈ l, m ≤ v := by
  intro l
  induction l with
  | nil => intro m h; simp [listMin] at h
  | cons x xs ih =>
    intro m h v hv
    cases hxs : listMin xs with
    | none =>
      have hnil : xs = [] := (listMin_eq_none xs).mp hxs
      subst hnil
      simp [listMin] at h
      subst h
      simp at hv
      subst hv
      exact le_refl v
    | some m' =>
      simp [listMin, hxs] at h
      rcases List.mem_cons.mp hv with rfl | hv'
      · rw [← h]; exact min_le_left _ _
      · calc m = min x m' := h.symm
          _ ≤ m' := min_le_right _ _
          _ ≤ v := ih m' hxs v hv'

/-- The computed maximum is an upper bound for every member. -/
theorem le_listMax : ∀ (l : List ℚ) (m : ℚ), listMax l = some m → ∀ v ∈ l, v ≤ m := by
  intro l
  induction l with
  | nil => intro m h; simp [listMax] at h
  | cons x xs ih =>
    intro m h v hv
    cases hxs : listMax xs with
    | none =>
      have hnil : xs = [] := (listMax_eq_none xs).mp hxs
      subst hnil
      simp [listMax] at h
      subst h
      simp at hv
      subst hv
      exact le_refl v
    | some m' =>
      simp [listMax, hxs] at h
      rcases List.mem_cons.mp hv with rfl | hv'
      · rw [← h]; exact le_max_left _ _
      · calc v ≤ m' := ih m' hxs v hv'
          _ ≤ max x m' := le_max_right _ _
          _ = m := h

/-! Claims. -/

/-- Claim C1, counterexample: for a record set holding one record with
salary 100 and one with a missing salary, the observed global minimum and
maximum are both 100, yet the Filter Engine run with all inclusion sets
empty and range `[100, 100]` does not return the full set — the
missing-salary record is dropped by the unconditional range filter. -/
theorem C1_counterexample :
    listMin (observedSalaries
      [⟨some "a", none, none, none, some 100⟩, ⟨some "b", none, none, none, none⟩]) = some 100
    ∧ listMax (observedSalaries
      [⟨some "a", none, none, none, some 100⟩, ⟨some "b", none, none, none, none⟩]) = some 100
    ∧ filterEngine
        [⟨some "a", none, none, none, some 100⟩, ⟨some "b", none, none, none, none⟩]
        ⟨[], [], [], 100, 100⟩
      ≠ [⟨some "a", none, none, none, some 100⟩, ⟨some "b", none, none, none, none⟩] :=
  ⟨by decide, by decide, by decide⟩

/-- Claim C1, amended: for every Cleaned Record set in which every record
has a present `SalaryUSD`, running the Filter Engine with all three
inclusion sets empty and `salaryRange` equal to `[global_min, global_max]`
of the observed `SalaryUSD` values returns the full Cleaned Record set, in
its original relative order. -/
theorem C1_empty_filters_full_range_passthrough (recs : List Record) (lo hi : ℚ)
    (hall : ∀ r ∈ recs, r.salary ≠ none)
    (hmin : listMin (observedSalaries recs) = some lo)
    (hmax : listMax (observedSalaries recs) = some hi) :
    filterEngine recs ⟨[], [], [], lo, hi⟩ = recs := by
  simp only [filterEngine, List.isEmpty_nil, if_true]
  apply List.filter_eq_self.mpr
  intro r hr
  cases hs : r.salary with
  | none => exact absurd hs (hall r hr)
  | some v =>
    have hv : v ∈ observedSalaries recs := List.mem_filterMap.mpr ⟨r, hr, hs⟩
    have h1 : lo ≤ v := listMin_le _ _ hmin v hv
    have h2 : v ≤ hi := le_listMax _ _ hmax v hv
    simp [matchesSalary, hs, decide_eq_true_eq]
    exact ⟨h1, h2⟩

/-- Claim C1, witness: a two-record set with both salaries present, filtered
with empty inclusion sets and its own observed range, comes back whole. -/
theorem C1_empty_filters_full_range_passthrough_witness :
    filterEngine
      [⟨some "a", none, none, none, some 50⟩, ⟨some "b", none, none, none, some 70⟩]
      ⟨[], [], [], 50, 70⟩
    = [⟨some "a", none, none, none, some 50⟩, ⟨some "b", none, none, none, some 70⟩] :=
  C1_empty_filters_full_range_passthrough _ 50 70 (by decide) (by decide) (by decide)

/-- Claim C6: `"$1,200"` cleans to the salary 1200, `"N/A"` cleans to
missing, and a record whose `SalaryUSD` is missing never appears in the
Filter Engine's output, whatever the Filter Spec — the range test of
lines 86-87 rejects a missing salary unconditionally. -/
theorem C6_salary_parse_and_absent_never_matches :
    salaryUSD (some "$1,200") = some 1200
    ∧ salaryUSD (some "N/A") = none
    ∧ ∀ (recs : List Record) (spec : FilterSpec) (r : Record),
        r ∈ filterEngine recs spec → r.salary ≠ none := by
  refine ⟨by decide, by decide, ?_⟩
  intro recs spec r hr
  simp only [filterEngine] at hr
  have hp := List.of_mem_filter hr
  cases hs : r.salary with
  | none => rw [hs] at hp; simp [matchesSalary] at hp
  | some v => simp [hs]

/-- Claim C6, witness: a concrete record passing the filter indeed has a
present salary. -/
theorem C6_salary_parse_and_absent_never_matches_witness :
    (({ link := some "a", country := none, city := none, seniority := none,
        salary := some 5 } : Record)).salary ≠ none :=
  C6_salary_parse_and_absent_never_matches.2.2
    [⟨some "a", none, none, none, some 5⟩] ⟨[], [], [], 0, 10⟩ _ (by decide)

/-- Claim C8: the job level of the second dashboard is `Junior` below 2
years of experience, `Mid-Level` from 2 up to (excluding) 5, `Senior` from
5 upward, and missing when the experience value is missing. -/
theorem C8_determine_job_level (x : ℚ) :
    determine_job_level none = none
    ∧ (x < 2 → determine_job_level (some x) = some "Junior")
    ∧ (2 ≤ x → x < 5 → determine_job_level (some x) = some "Mid-Level")
    ∧ (5 ≤ x → determine_job_level (some x) = some "Senior") := by
  refine ⟨rfl, ?_, ?_, ?_⟩
  · intro h
    simp only [determine_job_level]
    rw [if_pos h]
  · intro h1 h2
    simp only [determine_job_level]
    rw [if_neg (by linarith), if_pos ⟨h1, h2⟩]
  · intro h
    simp only [determine_job_level]
    rw [if_neg (by linarith), if_neg (by intro hc; linarith [hc.2]), if_pos h]

/-- Claim C8, witness: the spec's examples — 1.5 years is Junior, 4.9 is
Mid-Level, 5.0 is Senior. -/
theorem C8_determine_job_level_witness :
    determine_job_level (some ((3 : ℚ)/2)) = some "Junior"
    ∧ determine_job_level (some ((49 : ℚ)/10)) = some "Mid-Level"
    ∧ determine_job_level (some (5 : ℚ)) = some "Senior" :=
  ⟨(C8_determine_job_level (3/2)).2.1 (by norm_num),
   (C8_determine_job_level (49/10)).2.2.1 (by norm_num) (by norm_num),
   (C8_determine_job_level 5).2.2.2 (by norm_num)⟩

/-- Claim C9: a Filter Spec whose salary range has `min > max` yields the
empty result on every record set, with no error path. -/
theorem C9_inverted_range_empty (recs : List Record) (spec : FilterSpec)
    (h : spec.salaryHi < spec.salaryLo) : filterEngine recs spec = [] := by
  simp only [filterEngine]
  apply List.filter_eq_nil_iff.mpr
  intro r _
  cases hs : r.salary with
  | none => simp [matchesSalary, hs]
  | some v =>
    simp [matchesSalary, hs, decide_eq_true_eq]
    intro h1
    linarith

/-- Claim C9, witness: a record matching every other criterion is still
dropped when the range is inverted. -/
theorem C9_inverted_range_empty_witness :
    filterEngine
      [({ link := some "a", country := none, city := none, seniority := none,
          salary := some 5 } : Record)]
      ⟨[], [], [], 1, 0⟩ = [] :=
  C9_inverted_range_empty _ _ (by norm_num)

/-- A case-insensitive prefix match determines the case-folded codes of the
matched region: the first `ks.length` characters of the text case-fold to
the keyword's case-folded codes. -/
theorem ciPrefix_lowerList : ∀ (ks l : List Char), ciPrefix ks l = true →
    lowerList (l.take ks.length) = lowerList ks := by
  intro ks
  induction ks with
  | nil => intro l _; rfl
  | cons k ks ih =>
    intro l h
    cases l with
    | nil => simp [ciPrefix] at h
    | cons c cs =>
      simp only [ciPrefix, Bool.and_eq_true, beq_iff_eq] at h
      have hrest := ih cs h.2
      simp only [lowerList] at hrest
      simp only [List.length_cons, List.take_succ_cons, lowerList, List.map_cons]
      rw [← h.1, hrest]

/-- Whenever the seniority scanner returns a string, that string case-folds
to one of the five keywords. -/
theorem findSeniorityAux_lower : ∀ (l : List Char) (prev : Option Char) (s : String),
    findSeniorityAux prev l = some s →
    ∃ k ∈ seniorityKeywords, lowerList s.toList = lowerList k.toList := by
  intro l
  induction l with
  | nil => intro prev s h; simp [findSeniorityAux] at h
  | cons c cs ih =>
    intro prev s h
    simp only [findSeniorityAux] at h
    cases hf : seniorityKeywords.find? (fun kw => keywordHere prev (c :: cs) kw) with
    | none =>
      rw [hf] at h
      exact ih (some c) s h
    | some kw =>
      rw [hf] at h
      have hs : s = String.mk ((c :: cs).take kw.toList.length) := by
        injection h with h'
        exact h'.symm
      refine ⟨kw, List.mem_of_find?_eq_some hf, ?_⟩
      have hk := List.find?_some hf
      simp only [keywordHere, Bool.and_eq_true] at hk
      have hcp : ciPrefix kw.toList (c :: cs) = true := hk.1.2
      subst hs
      exact ciPrefix_lowerList kw.toList (c :: cs) hcp

/-- Claim C2, counterexample: the title `"senior engineer"` yields the
derived Seniority `"senior"`, which is none of the five exact strings —
`str.extract` with `re.IGNORECASE` returns the matched text in its original
case. -/
theorem C2_counterexample :
    extractSeniority "senior engineer" = some "senior"
    ∧ "senior" ∉ seniorityKeywords :=
  ⟨by decide, by decide⟩

/-- Claim C2, amended: the derived Seniority attribute is either absent or a
string that matches one of the five keywords Senior, Junior, Intern, Lead,
Manager case-insensitively (the matched text is returned in the job title's
original casing); the match is a standalone word, leftmost occurrence
winning, and a title with no keyword yields absent. -/
theorem C2_seniority_values (t s : String) :
    (extractSeniority t = some s →
      ∃ k ∈ seniorityKeywords, lowerList s.toList = lowerList k.toList)
    ∧ extractSeniority "Senior Backend Engineer" = some "Senior"
    ∧ extractSeniority "Backend Engineer" = none := by
  refine ⟨?_, by decide, by decide⟩
  intro h
  exact findSeniorityAux_lower t.toList none s h

/-- Claim C2, witness: the value extracted from `"senior engineer"`
case-folds to a keyword. -/
theorem C2_seniority_values_witness :
    ∃ k ∈ seniorityKeywords, lowerList "senior".toList = lowerList k.toList :=
  (C2_seniority_values "senior engineer" "senior").1 (by decide)

/-- A split never produces the empty list of pieces. -/
theorem splitChar_ne_nil : ∀ (sep : Char) (l : List Char), splitChar sep l ≠ [] := by
  intro sep l
  cases l with
  | nil => simp [splitChar]
  | cons c cs =>
    simp only [splitChar]
    by_cases h : c = sep
    · simp [h]
    · cases hr : splitChar sep cs <;> simp [h, hr]

/-- Prepending a character to the first piece prepends it to the join. -/
theorem joinSep_cons_head (sep c : Char) (p : List Char) :
    ∀ ps, joinSep sep ((c :: p) :: ps) = c :: joinSep sep (p :: ps) := by
  intro ps
  cases ps with
  | nil => rfl
  | cons q qs => simp [joinSep]

/-- Rejoining the pieces of a split with the separator restores the original
text: the pieces are kept verbatim, with no trimming. -/
theorem joinSep_splitChar : ∀ (sep : Char) (l : List Char),
    joinSep sep (splitChar sep l) = l := by
  intro sep l
  induction l with
  | nil => rfl
  | cons c cs ih =>
    simp only [splitChar]
    by_cases h : c = sep
    · rw [if_pos h]
      obtain ⟨p, ps, hr⟩ := List.exists_cons_of_ne_nil (splitChar_ne_nil sep cs)
      rw [hr] at ih ⊢
      simp only [joinSep, List.nil_append]
      rw [ih, h]
    · rw [if_neg h]
      obtain ⟨p, ps, hr⟩ := List.exists_cons_of_ne_nil (splitChar_ne_nil sep cs)
      rw [hr] at ih ⊢
      rw [joinSep_cons_head, ih]

/-- No piece of a split contains the separator. -/
theorem sep_not_mem_splitChar : ∀ (sep : Char) (l : List Char) (p : List Char),
    p ∈ splitChar sep l → sep ∉ p := by
  intro sep l
  induction l with
  | nil =>
    intro p hp
    simp only [splitChar, List.mem_singleton] at hp
    subst hp
    simp
  | cons c cs ih =>
    intro p hp
    simp only [splitChar] at hp
    by_cases h : c = sep
    · rw [if_pos h] at hp
      rcases List.mem_cons.mp hp with rfl | hp'
      · simp
      · exact ih p hp'
    · rw [if_neg h] at hp
      obtain ⟨q, qs, hr⟩ := List.exists_cons_of_ne_nil (splitChar_ne_nil sep cs)
      rw [hr] at hp
      rcases List.mem_cons.mp hp with rfl | hp'
      · intro hmem
        rcases List.mem_cons.mp hmem with rfl | hmem'
        · exact h rfl
        · exact ih q (by rw [hr]; exact List.mem_cons_self q qs) hmem'
      · exact ih p (by rw [hr]; exact List.mem_cons_of_mem q hp')

/-- Claim C5, counterexample: the skills text `"A · B"` derives the pieces
`["A ", " B"]` with their surrounding whitespace intact, not the trimmed
`["A", "B"]` the claim requires. -/
theorem C5_counterexample :
    skillsList (some "A · B") = some ["A ", " B"]
    ∧ skillsList (some "A · B") ≠ some ["A", "B"] :=
  ⟨by decide, by decide⟩

/-- Claim C5, amended: for every record with a skills value, the derived
Skills attribute is the ordered sequence obtained by splitting the raw text
on the middle dot, each element kept verbatim in original case and
untrimmed (rejoining the elements with the separator restores the raw text,
and no element contains the separator); records with no skills value get an
absent Skills attribute.  Trimming, together with lowercasing, happens only
in the word-cloud consumer. -/
theorem C5_skills_split (s : String) :
    skillsList none = none
    ∧ skillsList (some s) = some (skillsSplit s)
    ∧ joinSep '·' ((skillsSplit s).map String.toList) = s.toList
    ∧ ∀ p ∈ skillsSplit s, '·' ∉ p.toList := by
  refine ⟨rfl, rfl, ?_, ?_⟩
  · have hmm : (skillsSplit s).map String.toList = splitChar '·' s.toList := by
      simp only [skillsSplit, List.map_map]
      have : ∀ l : List (List Char), l.map (String.toList ∘ String.mk) = l := by
        intro l
        induction l with
        | nil => rfl
        | cons x xs ih =>
            simp only [List.map_cons, ih, Function.comp]
            rfl
      exact this _
    rw [hmm, joinSep_splitChar]
  · intro p hp hmem
    obtain ⟨q, hq, rfl⟩ := List.mem_map.mp hp
    exact sep_not_mem_splitChar '·' s.toList q hq hmem

/-- Claim C5, witness: an untrimmed piece of the example split contains no
separator, and the example split rejoins to the raw text. -/
theorem C5_skills_split_witness :
    '·' ∉ "A ".toList
    ∧ joinSep '·' ((skillsSplit "A · B").map String.toList) = "A · B".toList :=
  ⟨(C5_skills_split "A · B").2.2.2 "A " (by decide), (C5_skills_split "A · B").2.2.1⟩

/-- Taking as many characters as the `takeWhile` result is the `takeWhile`
result: the scanned piece is a prefix of the text. -/
theorem take_length_takeWhile {α} (p : α → Bool) : ∀ l : List α,
    l.take (l.takeWhile p).length = l.takeWhile p := by
  intro l
  induction l with
  | nil => rfl
  | cons c cs ih =>
    by_cases h : p c
    · simp [List.takeWhile_cons, h, List.take_succ_cons, ih]
    · simp [List.takeWhile_cons, h]

/-- Dropping one leading newline keeps membership. -/
theorem mem_stripOneNewline {a : Char} : ∀ (l : List Char), a ∈ stripOneNewline l → a ∈ l := by
  intro l h
  simp only [stripOneNewline] at h
  split at h
  · exact List.mem_cons_of_mem _ h
  · exact h

/-- Stripping surrounding whitespace keeps membership. -/
theorem mem_pyStripChars {a : Char} (l : List Char) (h : a ∈ pyStripChars l) : a ∈ l := by
  simp only [pyStripChars] at h
  have h1 := List.mem_reverse.mp h
  have h2 := (List.dropWhile_sublist _).subset h1
  have h3 := List.mem_reverse.mp h2
  exact (List.dropWhile_sublist _).subset h3

/-- A successful country extraction yields a nonempty token made purely of
word characters — the `(\w+)` group of the pattern. -/
theorem extractCountry_wordChars : ∀ (loc c : String), extractCountry loc = some c →
    c.toList ≠ [] ∧ ∀ ch ∈ c.toList, isWordChar ch = true := by
  intro loc c h
  simp only [extractCountry] at h
  by_cases hw : ((stripOneNewline loc.toList.reverse).takeWhile isWordChar).isEmpty
  · rw [if_pos hw] at h
    exact absurd h (by simp)
  · rw [if_neg hw] at h
    split at h
    · injection h with h'
      subst h'
      constructor
      · intro hnil
        exact hw (by rw [List.isEmpty_iff]; exact List.reverse_eq_nil_iff.mp hnil)
      · intro ch hch
        have hmem : ch ∈ (stripOneNewline loc.toList.reverse).takeWhile isWordChar :=
          List.mem_reverse.mp hch
        exact List.mem_takeWhile_imp hmem
    · exact absurd h (by simp)

/-- A successful country extraction requires a comma in the location: the
pattern `,\s*(\w+)$` cannot match without one. -/
theorem extractCountry_comma : ∀ (loc c : String), extractCountry loc = some c →
    ',' ∈ loc.toList := by
  intro loc c h
  simp only [extractCountry] at h
  by_cases hw : ((stripOneNewline loc.toList.reverse).takeWhile isWordChar).isEmpty
  · rw [if_pos hw] at h
    exact absurd h (by simp)
  · rw [if_neg hw] at h
    split at h
    · rename_i heq
      have h1 : ',' ∈ ((stripOneNewline loc.toList.reverse).dropWhile isWordChar).dropWhile pyIsSpace := by
        rw [heq]
        exact List.mem_cons_self _ _
      have h2 := (List.dropWhile_sublist _).subset h1
      have h3 := (List.dropWhile_sublist _).subset h2
      have h4 := mem_stripOneNewline _ h3
      exact List.mem_reverse.mp h4
    · exact absurd h (by simp)

/-- Scanning past a block that wholly satisfies the predicate takes the
block and continues into the remainder. -/
theorem takeWhile_append_all {α} (p : α → Bool) :
    ∀ (l1 l2 : List α), (∀ x ∈ l1, p x = true) →
      (l1 ++ l2).takeWhile p = l1 ++ l2.takeWhile p := by
  intro l1
  induction l1 with
  | nil => intro l2 _; simp
  | cons a t ih =>
    intro l2 h
    have ha : p a = true := h a (List.mem_cons_self _ _)
    rw [List.cons_append, List.takeWhile_cons, if_pos ha,
      ih l2 (fun x hx => h x (List.mem_cons_of_mem _ hx)), List.cons_append]

/-- Dropping past a block that wholly satisfies the predicate discards the
block and continues into the remainder. -/
theorem dropWhile_append_all {α} (p : α → Bool) :
    ∀ (l1 l2 : List α), (∀ x ∈ l1, p x = true) →
      (l1 ++ l2).dropWhile p = l2.dropWhile p := by
  intro l1
  induction l1 with
  | nil => intro l2 _; simp
  | cons a t ih =>
    intro l2 h
    have ha : p a = true := h a (List.mem_cons_self _ _)
    rw [List.cons_append, List.dropWhile_cons, if_pos ha,
      ih l2 (fun x hx => h x (List.mem_cons_of_mem _ hx))]

/-- The first character surviving a `dropWhile` fails the predicate. -/
theorem dropWhile_head_false {α} (p : α → Bool) :
    ∀ (l : List α) (h : α) (t : List α), l.dropWhile p = h :: t → p h = false := by
  intro l
  induction l with
  | nil => intro h t hEq; simp at hEq
  | cons c cs ih =>
    intro h t hEq
    by_cases hc : p c
    · rw [List.dropWhile_cons, if_pos hc] at hEq
      exact ih h t hEq
    · rw [List.dropWhile_cons, if_neg hc] at hEq
      injection hEq with h1 _
      rw [← h1]
      exact Bool.eq_false_iff.mpr hc

/-- Whitespace characters are not word characters. -/
theorem isWordChar_eq_false_of_space (ch : Char) (h : pyIsSpace ch = true) :
    isWordChar ch = false := by
  simp only [pyIsSpace, Bool.or_eq_true, beq_iff_eq] at h
  rcases h with ((((h | h) | h) | h) | h) | h <;> subst h <;> decide

/-- Either the newline strip is the identity or the list was that strip
with one newline in front. -/
theorem stripOneNewline_cases : ∀ l : List Char,
    stripOneNewline l = l ∨ l = '\n' :: stripOneNewline l := by
  intro l
  simp only [stripOneNewline]
  split
  · right; rfl
  · left; rfl

/-- The newline strip leaves a list alone when its head is not a
newline. -/
theorem stripOneNewline_cons_ne (h : Char) (t : List Char) (hne : h ≠ '\n') :
    stripOneNewline (h :: t) = h :: t := by
  simp only [stripOneNewline]
  split
  · rename_i heq
    injection heq with h1 _
    exact absurd h1 hne
  · rfl

/-- Exact characterization of the City extraction `^([^,]+)`: a value is
produced exactly for the maximal nonempty comma-free prefix — the location
is that prefix followed either by nothing or by a comma. -/
theorem extractCity_iff (loc s : String) :
    extractCity loc = some s ↔
      s.toList ≠ [] ∧ ',' ∉ s.toList ∧
        (loc.toList = s.toList ∨ ∃ rest, loc.toList = s.toList ++ ',' :: rest) := by
  constructor
  · intro h
    simp only [extractCity] at h
    by_cases hp : (loc.toList.takeWhile (fun c => c != ',')).isEmpty
    · rw [if_pos hp] at h
      exact absurd h (by simp)
    · rw [if_neg hp] at h
      injection h with h'
      have hst : s.toList = loc.toList.takeWhile (fun c => c != ',') := by
        rw [← h']
        rfl
      have hsplit := List.takeWhile_append_dropWhile
        (p := fun c => c != ',') (l := loc.toList)
      refine ⟨?_, ?_, ?_⟩
      · rw [hst]
        intro hnil
        exact hp (by rw [List.isEmpty_iff]; exact hnil)
      · rw [hst]
        intro hmem
        have := List.mem_takeWhile_imp hmem
        simp at this
      · rw [hst]
        cases hd : loc.toList.dropWhile (fun c => c != ',') with
        | nil =>
          left
          rw [hd, List.append_nil] at hsplit
          exact hsplit.symm
        | cons h0 t0 =>
          right
          have hh : (h0 != ',') = false := dropWhile_head_false _ _ h0 t0 hd
          have hc : h0 = ',' := by simpa using hh
          refine ⟨t0, ?_⟩
          rw [hd, hc] at hsplit
          exact hsplit.symm
  · rintro ⟨hne, hnc, hcase⟩
    have hall : ∀ a ∈ s.toList, (fun c => c != ',') a = true := by
      intro a ha
      simp only [bne_iff_ne]
      intro hEq
      exact hnc (hEq ▸ ha)
    rcases hcase with hEq | ⟨rest, hEq⟩
    · have ht : loc.toList.takeWhile (fun c => c != ',') = loc.toList :=
        List.takeWhile_eq_self_iff.mpr (by rw [hEq]; exact hall)
      simp only [extractCity, ht]
      rw [if_neg (by rw [List.isEmpty_iff, hEq]; exact hne), hEq]
      rfl
    · have ht : loc.toList.takeWhile (fun c => c != ',') = s.toList := by
        rw [hEq, takeWhile_append_all _ s.toList (',' :: rest) hall, List.takeWhile_cons]
        rw [if_neg (by decide), List.append_nil]
      simp only [extractCity, ht]
      rw [if_neg (by rw [List.isEmpty_iff]; exact hne)]
      rfl

/-- Exact characterization of the Country extraction `,\s*(\w+)$`: a value
is produced exactly when the location is some text, a comma, optional
whitespace and a nonempty word-character run, optionally closed by one
trailing newline (which the `$` anchor ignores); the value is that
word-character run. -/
theorem extractCountry_iff (loc c : String) :
    extractCountry loc = some c ↔
      ∃ pre sp w nl, loc.toList = pre ++ ',' :: (sp ++ w ++ nl)
        ∧ (nl = [] ∨ nl = ['\n'])
        ∧ (∀ ch ∈ sp, pyIsSpace ch = true)
        ∧ w ≠ [] ∧ (∀ ch ∈ w, isWordChar ch = true)
        ∧ c = String.mk w := by
  constructor
  · intro h
    simp only [extractCountry] at h
    by_cases hw : ((stripOneNewline loc.toList.reverse).takeWhile isWordChar).isEmpty
    · rw [if_pos hw] at h
      exact absurd h (by simp)
    · rw [if_neg hw] at h
      split at h
      · rename_i t heq
        injection h with h'
        have e1 := List.takeWhile_append_dropWhile
          (p := isWordChar) (l := stripOneNewline loc.toList.reverse)
        have e2 := List.takeWhile_append_dropWhile
          (p := pyIsSpace) (l := (stripOneNewline loc.toList.reverse).dropWhile isWordChar)
        rw [heq] at e2
        have e3 : stripOneNewline loc.toList.reverse
            = (stripOneNewline loc.toList.reverse).takeWhile isWordChar
              ++ (((stripOneNewline loc.toList.reverse).dropWhile isWordChar).takeWhile pyIsSpace
                  ++ ',' :: t) := by
          rw [e2, e1]
        have hwne : ((stripOneNewline loc.toList.reverse).takeWhile isWordChar).reverse ≠ [] := by
          intro h0
          exact hw (by rw [List.isEmpty_iff]; exact List.reverse_eq_nil_iff.mp h0)
        have hsp : ∀ ch ∈ (((stripOneNewline loc.toList.reverse).dropWhile
            isWordChar).takeWhile pyIsSpace).reverse, pyIsSpace ch = true := by
          intro ch hch
          exact List.mem_takeWhile_imp (List.mem_reverse.mp hch)
        have hword : ∀ ch ∈ ((stripOneNewline loc.toList.reverse).takeWhile
            isWordChar).reverse, isWordChar ch = true := by
          intro ch hch
          exact List.mem_takeWhile_imp (List.mem_reverse.mp hch)
        have hkey : (stripOneNewline loc.toList.reverse).reverse
            = t.reverse ++ ',' :: ((((stripOneNewline loc.toList.reverse).dropWhile
                isWordChar).takeWhile pyIsSpace).reverse
              ++ ((stripOneNewline loc.toList.reverse).takeWhile isWordChar).reverse) := by
          conv_lhs => rw [e3]
          simp [List.reverse_append, List.reverse_cons, List.append_assoc]
        rcases stripOneNewline_cases loc.toList.reverse with hA | hB
        · refine ⟨t.reverse,
            (((stripOneNewline loc.toList.reverse).dropWhile isWordChar).takeWhile
              pyIsSpace).reverse,
            ((stripOneNewline loc.toList.reverse).takeWhile isWordChar).reverse, [],
            ?_, Or.inl rfl, hsp, hwne, hword, h'.symm⟩
          have hlt : loc.toList = (stripOneNewline loc.toList.reverse).reverse := by
            conv_lhs => rw [← List.reverse_reverse loc.toList]
            rw [hA]
          exact hlt.trans (hkey.trans (by simp))
        · refine ⟨t.reverse,
            (((stripOneNewline loc.toList.reverse).dropWhile isWordChar).takeWhile
              pyIsSpace).reverse,
            ((stripOneNewline loc.toList.reverse).takeWhile isWordChar).reverse, ['\n'],
            ?_, Or.inr rfl, hsp, hwne, hword, h'.symm⟩
          have hlt : loc.toList = (stripOneNewline loc.toList.reverse).reverse ++ ['\n'] := by
            conv_lhs => rw [← List.reverse_reverse loc.toList, hB]
            rw [List.reverse_cons]
          refine hlt.trans ?_
          rw [hkey]
          simp [List.append_assoc]
      · exact absurd h (by simp)
  · rintro ⟨pre, sp, w, nl, hEq, hnl, hsp, hwne, hword, hc⟩
    have hwr : w.reverse ≠ [] := fun h0 => hwne (List.reverse_eq_nil_iff.mp h0)
    have hwordr : ∀ ch ∈ w.reverse, isWordChar ch = true := by
      intro ch hch
      exact hword ch (List.mem_reverse.mp hch)
    have hspr : ∀ ch ∈ sp.reverse, pyIsSpace ch = true := by
      intro ch hch
      exact hsp ch (List.mem_reverse.mp hch)
    have hrl : stripOneNewline loc.toList.reverse
        = w.reverse ++ (sp.reverse ++ (',' :: pre.reverse)) := by
      have hrev : loc.toList.reverse
          = nl.reverse ++ (w.reverse ++ (sp.reverse ++ (',' :: pre.reverse))) := by
        rw [hEq]
        simp [List.reverse_append, List.append_assoc]
      rcases hnl with rfl | rfl
      · rw [hrev]
        simp only [List.reverse_nil, List.nil_append]
        obtain ⟨h0, t0, hwt⟩ := List.exists_cons_of_ne_nil hwr
        have hh0 : isWordChar h0 = true := hwordr h0 (by rw [hwt]; exact List.mem_cons_self _ _)
        have hne : h0 ≠ '\n' := by
          intro hEq0
          rw [hEq0] at hh0
          exact absurd hh0 (by decide)
        rw [hwt, List.cons_append]
        exact stripOneNewline_cons_ne h0 _ hne
      · rw [hrev]
        rfl
    have htw : (stripOneNewline loc.toList.reverse).takeWhile isWordChar = w.reverse := by
      rw [hrl, takeWhile_append_all _ w.reverse _ hwordr]
      cases hspc : sp.reverse with
      | nil =>
        rw [List.nil_append, List.takeWhile_cons, if_neg (by decide), List.append_nil]
      | cons h0 t0 =>
        have hh0 : pyIsSpace h0 = true := hspr h0 (by rw [hspc]; exact List.mem_cons_self _ _)
        rw [List.cons_append, List.takeWhile_cons,
          if_neg (by rw [isWordChar_eq_false_of_space h0 hh0]; simp), List.append_nil]
    have hdw : ((stripOneNewline loc.toList.reverse).dropWhile isWordChar).dropWhile pyIsSpace
        = ',' :: pre.reverse := by
      rw [hrl, dropWhile_append_all _ w.reverse _ hwordr]
      have hmid : (sp.reverse ++ (',' :: pre.reverse)).dropWhile isWordChar
          = sp.reverse ++ (',' :: pre.reverse) := by
        cases hspc : sp.reverse with
        | nil =>
          simp only [List.nil_append, List.dropWhile_cons]
          rw [if_neg (by decide)]
        | cons h0 t0 =>
          have hh0 : pyIsSpace h0 = true := hspr h0 (by rw [hspc]; exact List.mem_cons_self _ _)
          simp only [List.cons_append, List.dropWhile_cons]
          rw [if_neg (by rw [isWordChar_eq_false_of_space h0 hh0]; simp)]
      rw [hmid, dropWhile_append_all _ sp.reverse _ hspr, List.dropWhile_cons,
        if_neg (by decide)]
    simp only [extractCountry]
    rw [htw, hdw, if_neg (by rw [List.isEmpty_iff]; exact hwr)]
    rw [List.reverse_reverse, hc]
    rfl

/-- Claim C4, counterexample: the location `"Cairo, New York"` has the
trailing comma-separated token `"New York"`, yet the code derives an absent
Country — the pattern `,\s*(\w+)$` rejects a trailing token containing a
space. -/
theorem C4_counterexample :
    extractCountry "Cairo, New York" = none
    ∧ extractCountry "Cairo, New York" ≠ some "New York" :=
  ⟨by decide, by decide⟩

/-- Claim C4, amended: City is produced exactly for the maximal nonempty
comma-free prefix of the location — the location is that prefix followed by
nothing or by a comma — and is absent otherwise.  Country is present
exactly when the location (up to one trailing newline, which the `$` anchor
ignores) ends in a comma, optional whitespace and a nonempty run of word
characters, and is then that word-character run — so a multi-word trailing
token such as `"New York"` yields an absent Country.  A location with no
comma yields Country absent; `"Cairo, Egypt"` gives City `"Cairo"` and
Country `"Egypt"`, `"Remote"` gives City `"Remote"` and Country absent. -/
theorem C4_location_split (loc : String) :
    (extractCity "Cairo, Egypt" = some "Cairo" ∧ extractCountry "Cairo, Egypt" = some "Egypt"
     ∧ extractCity "Remote" = some "Remote" ∧ extractCountry "Remote" = none)
    ∧ (∀ s, extractCity loc = some s ↔
        s.toList ≠ [] ∧ ',' ∉ s.toList ∧
          (loc.toList = s.toList ∨ ∃ rest, loc.toList = s.toList ++ ',' :: rest))
    ∧ (∀ c, extractCountry loc = some c ↔
        ∃ pre sp w nl, loc.toList = pre ++ ',' :: (sp ++ w ++ nl)
          ∧ (nl = [] ∨ nl = ['\n'])
          ∧ (∀ ch ∈ sp, pyIsSpace ch = true)
          ∧ w ≠ [] ∧ (∀ ch ∈ w, isWordChar ch = true)
          ∧ c = String.mk w)
    ∧ (',' ∉ loc.toList → extractCountry loc = none) := by
  refine ⟨⟨by decide, by decide, by decide, by decide⟩, ?_, ?_, ?_⟩
  · intro s
    exact extractCity_iff loc s
  · intro c
    exact extractCountry_iff loc c
  · intro hnc
    cases hec : extractCountry loc with
    | none => rfl
    | some c => exact absurd (extractCountry_comma loc c hec) hnc

/-- Claim C4, witness: the characterizations applied concretely — no
Country for `"Remote"`, City `"Remote"` via the prefix characterization,
and Country `"Egypt"` for `"Cairo, Egypt"` via the suffix
characterization. -/
theorem C4_location_split_witness :
    extractCountry "Remote" = none
    ∧ extractCity "Remote" = some "Remote"
    ∧ extractCountry "Cairo, Egypt" = some "Egypt" :=
  ⟨(C4_location_split "Remote").2.2.2 (by decide),
   ((C4_location_split "Remote").2.1 "Remote").mpr ⟨by decide, by decide, Or.inl rfl⟩,
   ((C4_location_split "Cairo, Egypt").2.2.1 "Egypt").mpr
     ⟨"Cairo".toList, [' '], "Egypt".toList, [], by decide, Or.inl rfl, by decide,
      by decide, by decide, rfl⟩⟩

/-- Claim C10: with a Skills column present every dash is removed from the
location (and surrounding whitespace stripped) before City and Country are
extracted, so neither derived value can contain a dash; with no Skills
column the location is left unmodified. -/
theorem C10_dash_removal (loc : String) :
    cleanLocation false loc = loc
    ∧ '-' ∉ (cleanLocation true loc).toList
    ∧ (∀ s, extractCity (cleanLocation true loc) = some s → '-' ∉ s.toList)
    ∧ (∀ c, extractCountry (cleanLocation true loc) = some c → '-' ∉ c.toList) := by
  have hdash : '-' ∉ (cleanLocation true loc).toList := by
    intro hmem
    have h0 : (cleanLocation true loc).toList
        = pyStripChars (loc.toList.filter (fun c => c != '-')) := rfl
    rw [h0] at hmem
    have h1 : '-' ∈ loc.toList.filter (fun c => c != '-') := mem_pyStripChars _ hmem
    have := List.of_mem_filter h1
    simp at this
  refine ⟨rfl, hdash, ?_, ?_⟩
  · intro s h hmem
    simp only [extractCity] at h
    by_cases hp : ((cleanLocation true loc).toList.takeWhile (fun c => c != ',')).isEmpty
    · rw [if_pos hp] at h
      exact absurd h (by simp)
    · rw [if_neg hp] at h
      injection h with h'
      subst h'
      exact hdash ((List.takeWhile_sublist _).subset hmem)
  · intro c h hmem
    have hw := extractCountry_wordChars _ c h
    have := hw.2 '-' hmem
    simp [isWordChar] at this

/-- Claim C10, witness: `"Abu-Dhabi, UAE"` yields the dash-free City
`"AbuDhabi"`, and with no Skills column the location is untouched. -/
theorem C10_dash_removal_witness :
    cleanLocation false "Abu-Dhabi, UAE" = "Abu-Dhabi, UAE"
    ∧ '-' ∉ "AbuDhabi".toList :=
  ⟨(C10_dash_removal "Abu-Dhabi, UAE").1,
   (C10_dash_removal "Abu-Dhabi, UAE").2.2.1 "AbuDhabi" (by decide)⟩

/-- The deduplication scan returns a subsequence of its input: kept records
appear in encounter order. -/
theorem ddlAux_sublist : ∀ (l : List Record) (seen : List (Option String)),
    (dropDupByLinkAux seen l).Sublist l := by
  intro l
  induction l with
  | nil => intro seen; exact List.Sublist.refl _
  | cons r rs ih =>
    intro seen
    simp only [dropDupByLinkAux]
    by_cases h : r.link ∈ seen
    · rw [if_pos h]
      exact (ih seen).cons r
    · rw [if_neg h]
      exact (ih _).cons₂ r

/-- No record surviving the deduplication scan has a link key that was
already seen. -/
theorem ddlAux_link_not_seen : ∀ (l : List Record) (seen : List (Option String)) (x : Record),
    x ∈ dropDupByLinkAux seen l → x.link ∉ seen := by
  intro l
  induction l with
  | nil => intro seen x hx; simp [dropDupByLinkAux] at hx
  | cons r rs ih =>
    intro seen x hx
    simp only [dropDupByLinkAux] at hx
    by_cases h : r.link ∈ seen
    · rw [if_pos h] at hx
      exact ih seen x hx
    · rw [if_neg h] at hx
      rcases List.mem_cons.mp hx with rfl | hx'
      · exact h
      · have hni := ih _ x hx'
        intro hs
        exact hni (List.mem_cons_of_mem _ hs)

/-- After the deduplication scan, all surviving link keys are pairwise
distinct. -/
theorem ddlAux_pairwise : ∀ (l : List Record) (seen : List (Option String)),
    (dropDupByLinkAux seen l).Pairwise (fun a b => a.link ≠ b.link) := by
  intro l
  induction l with
  | nil => intro seen; simp [dropDupByLinkAux]
  | cons r rs ih =>
    intro seen
    simp only [dropDupByLinkAux]
    by_cases h : r.link ∈ seen
    · rw [if_pos h]
      exact ih seen
    · rw [if_neg h]
      refine List.Pairwise.cons ?_ (ih _)
      intro b hb
      have hni := ddlAux_link_not_seen rs _ b hb
      intro hEq
      apply hni
      rw [← hEq]
      exact List.mem_cons_self _ _

/-- Every link key of the input survives the scan, unless it was already in
the seen set. -/
theorem ddlAux_covers : ∀ (l : List Record) (seen : List (Option String)) (x : Record),
    x ∈ l → x.link ∈ seen ∨ ∃ r' ∈ dropDupByLinkAux seen l, r'.link = x.link := by
  intro l
  induction l with
  | nil => intro seen x hx; simp at hx
  | cons r rs ih =>
    intro seen x hx
    simp only [dropDupByLinkAux]
    by_cases h : r.link ∈ seen
    · rw [if_pos h]
      rcases List.mem_cons.mp hx with rfl | hx'
      · exact Or.inl h
      · exact ih seen x hx'
    · rw [if_neg h]
      rcases List.mem_cons.mp hx with rfl | hx'
      · exact Or.inr ⟨_, List.mem_cons_self _ _, rfl⟩
      · rcases ih (r.link :: seen) x hx' with hs | ⟨r', hr', hl⟩
        · rcases List.mem_cons.mp hs with hEq | hs'
          · exact Or.inr ⟨r, List.mem_cons_self _ _, hEq.symm⟩
          · exact Or.inl hs'
        · exact Or.inr ⟨r', List.mem_cons_of_mem _ hr', hl⟩

/-- The deduplication scan only consults the seen set through membership:
extensionally equal seen sets give the same result. -/
theorem ddlAux_seen_ext : ∀ (l : List Record) (s1 s2 : List (Option String)),
    (∀ x, x ∈ s1 ↔ x ∈ s2) → dropDupByLinkAux s1 l = dropDupByLinkAux s2 l := by
  intro l
  induction l with
  | nil => intro s1 s2 _; rfl
  | cons r rs ih =>
    intro s1 s2 hiff
    simp only [dropDupByLinkAux]
    by_cases h : r.link ∈ s1
    · rw [if_pos h, if_pos ((hiff _).mp h)]
      exact ih s1 s2 hiff
    · rw [if_neg h, if_neg (fun hc => h ((hiff _).mpr hc))]
      have htail := ih (r.link :: s1) (r.link :: s2)
        (by intro x; simp only [List.mem_cons]; exact or_congr Iff.rfl (hiff x))
      rw [htail]

/-- Seeding the scan with an extra key `a` is the same as first discarding
every record whose link is `a`. -/
theorem ddlAux_filter : ∀ (l : List Record) (seen : List (Option String)) (a : Option String),
    dropDupByLinkAux (a :: seen) l
      = dropDupByLinkAux seen (l.filter (fun s => s.link != a)) := by
  intro l
  induction l with
  | nil => intro seen a; rfl
  | cons r rs ih =>
    intro seen a
    by_cases hra : r.link = a
    · simp only [dropDupByLinkAux, List.filter_cons]
      have h1 : r.link ∈ a :: seen := by rw [hra]; exact List.mem_cons_self _ _
      rw [if_pos h1]
      have h2 : (r.link != a) = false := by simp [hra]
      simp only [h2, Bool.false_eq_true, if_false]
      exact ih seen a
    · by_cases hs : r.link ∈ seen
      · simp only [dropDupByLinkAux, List.filter_cons]
        have h1 : r.link ∈ a :: seen := List.mem_cons_of_mem _ hs
        rw [if_pos h1]
        have h2 : (r.link != a) = true := by simp [hra]
        simp only [h2, if_true]
        simp only [dropDupByLinkAux]
        rw [if_pos hs]
        exact ih seen a
      · simp only [dropDupByLinkAux, List.filter_cons]
        have h1 : r.link ∉ a :: seen := by
          intro hc
          rcases List.mem_cons.mp hc with hEq | hmem
          · exact hra hEq
          · exact hs hmem
        rw [if_neg h1]
        have h2 : (r.link != a) = true := by simp [hra]
        simp only [h2, if_true]
        simp only [dropDupByLinkAux]
        rw [if_neg hs]
        have hswap := ddlAux_seen_ext rs (r.link :: a :: seen) (a :: r.link :: seen)
          (by intro x; simp only [List.mem_cons]; tauto)
        rw [hswap, ih (r.link :: seen) a]

/-- The recursion equation of `drop_duplicates(subset=["Link"],
keep="first")`: the head record is always kept, every later record sharing
its link is discarded, and the remainder is deduplicated in turn.  Together
with the empty-list equation this uniquely characterizes the keep-first,
order-preserving deduplication. -/
theorem dropDuplicatesByLink_cons (r : Record) (rs : List Record) :
    dropDuplicatesByLink (r :: rs)
      = r :: dropDuplicatesByLink (rs.filter (fun s => s.link != r.link)) := by
  simp only [dropDuplicatesByLink, dropDupByLinkAux]
  rw [if_neg (List.not_mem_nil _)]
  rw [ddlAux_filter]

/-- A record preceded by no record with its link key survives the scan:
the first occurrence of each link value is retained. -/
theorem ddlAux_keeps_first : ∀ (pre : List Record) (x : Record) (suf : List Record)
    (seen : List (Option String)),
    x.link ∉ seen → (∀ y ∈ pre, y.link ≠ x.link) →
    x ∈ dropDupByLinkAux seen (pre ++ x :: suf) := by
  intro pre
  induction pre with
  | nil =>
    intro x suf seen hx _
    simp only [List.nil_append, dropDupByLinkAux]
    rw [if_neg hx]
    exact List.mem_cons_self _ _
  | cons p pre' ih =>
    intro x suf seen hx hpre
    simp only [List.cons_append, dropDupByLinkAux]
    by_cases hp : p.link ∈ seen
    · rw [if_pos hp]
      exact ih x suf seen hx (fun y hy => hpre y (List.mem_cons_of_mem _ hy))
    · rw [if_neg hp]
      apply List.mem_cons_of_mem
      refine ih x suf (p.link :: seen) ?_ (fun y hy => hpre y (List.mem_cons_of_mem _ hy))
      intro hc
      rcases List.mem_cons.mp hc with hEq | hmem
      · exact hpre p (List.mem_cons_self _ _) hEq.symm
      · exact hx hmem

/-- Claim C3, counterexample: when the input has no Skills column the
cleaning stage performs no link-based deduplication — two distinct records
sharing the same Link value are both retained, so the dedup does not hold
for every input.  (The dedup would keep only the first of the pair.) -/
theorem C3_counterexample :
    linkDedupStage false
      [⟨some "L", none, none, none, some 1⟩, ⟨some "L", none, none, none, some 2⟩]
    = [⟨some "L", none, none, none, some 1⟩, ⟨some "L", none, none, none, some 2⟩]
    ∧ (⟨some "L", none, none, none, some 1⟩ : Record).link
        = (⟨some "L", none, none, none, some 2⟩ : Record).link
    ∧ (⟨some "L", none, none, none, some 1⟩ : Record)
        ≠ (⟨some "L", none, none, none, some 2⟩ : Record)
    ∧ dropDuplicatesByLink
        [⟨some "L", none, none, none, some 1⟩, ⟨some "L", none, none, none, some 2⟩]
      = [⟨some "L", none, none, none, some 1⟩] :=
  ⟨rfl, rfl, by decide, by decide⟩

/-- Claim C3, amended: the cleaned records are deduplicated on the link
field only when the input contains a Skills column; in that case the dedup
keeps the first occurrence of each link value, in encounter order — it
satisfies the keep-first recursion equations (the head record is kept and
all later records with its link are discarded before the rest is
deduplicated), every record with no earlier same-link record is retained,
the result is a subsequence of the input with pairwise-distinct link
values, and every link value keeps a representative.  Without a Skills
column the record set passes through with duplicates intact. -/
theorem C3_dedup_on_link (recs : List Record) :
    linkDedupStage false recs = recs
    ∧ linkDedupStage true ([] : List Record) = []
    ∧ (∀ (r : Record) (rs : List Record),
        linkDedupStage true (r :: rs)
          = r :: linkDedupStage true (rs.filter (fun s => s.link != r.link)))
    ∧ (∀ pre x suf, recs = pre ++ x :: suf → (∀ y ∈ pre, y.link ≠ x.link) →
        x ∈ linkDedupStage true recs)
    ∧ (linkDedupStage true recs).Sublist recs
    ∧ (linkDedupStage true recs).Pairwise (fun a b => a.link ≠ b.link)
    ∧ ∀ x ∈ recs, ∃ r' ∈ linkDedupStage true recs, r'.link = x.link := by
  refine ⟨rfl, rfl, ?_, ?_, ddlAux_sublist recs [], ddlAux_pairwise recs [], ?_⟩
  · intro r rs
    exact dropDuplicatesByLink_cons r rs
  · intro pre x suf hEq hpre
    rw [hEq]
    exact ddlAux_keeps_first pre x suf [] (List.not_mem_nil _) hpre
  · intro x hx
    rcases ddlAux_covers recs [] x hx with hs | h
    · simp at hs
    · exact h

/-- Claim C3, witness: in the duplicated pair the first occurrence is the
one retained by the dedup stage, and its link value keeps a
representative. -/
theorem C3_dedup_on_link_witness :
    (⟨some "L", none, none, none, some 1⟩ : Record)
      ∈ linkDedupStage true
          [(⟨some "L", none, none, none, some 1⟩ : Record), ⟨some "L", none, none, none, some 2⟩]
    ∧ ∃ r' ∈ linkDedupStage true
          [(⟨some "L", none, none, none, some 1⟩ : Record), ⟨some "L", none, none, none, some 2⟩],
        r'.link = (⟨some "L", none, none, none, some 2⟩ : Record).link :=
  ⟨(C3_dedup_on_link _).2.2.2.1 [] _ [⟨some "L", none, none, none, some 2⟩] rfl (by decide),
   (C3_dedup_on_link _).2.2.2.2.2.2 _ (by decide)⟩

/-- Claim C7: the schema check fails exactly when the required column set is
not contained in the column names that survive the all-null drop and the
header trim; the reported error holds exactly the missing required columns;
and a required column present only as all-null columns is reported
missing. -/
theorem C7_schema_error (t : List Column) :
    (schemaCheck t = Except.ok () ↔ ∀ r ∈ required_columns, r ∈ keptColumnNames t)
    ∧ (∀ e, schemaCheck t = Except.error e →
        ∀ x, x ∈ e ↔ x ∈ required_columns ∧ x ∉ keptColumnNames t)
    ∧ (∀ r ∈ required_columns,
        (∀ c ∈ t, pyStrip c.1 = r → c.2.all (fun v => v.isNone)) →
        ∃ e, schemaCheck t = Except.error e ∧ r ∈ e) := by
  have hmem : ∀ x, x ∈ required_columns.filter (fun r => decide (r ∉ keptColumnNames t))
      ↔ x ∈ required_columns ∧ x ∉ keptColumnNames t := by
    intro x
    rw [List.mem_filter]
    simp [decide_eq_true_eq]
  refine ⟨⟨?_, ?_⟩, ?_, ?_⟩
  · intro h r hr
    by_contra hnk
    have hx : r ∈ required_columns.filter (fun r => decide (r ∉ keptColumnNames t)) :=
      (hmem r).mpr ⟨hr, hnk⟩
    have hne := List.ne_nil_of_mem hx
    simp only [schemaCheck] at h
    rw [if_neg (by rw [List.isEmpty_iff]; exact hne)] at h
    exact absurd h (by simp)
  · intro hall
    have hnil : required_columns.filter (fun r => decide (r ∉ keptColumnNames t)) = [] := by
      apply List.filter_eq_nil_iff.mpr
      intro a ha
      simp only [decide_eq_true_eq, not_not]
      exact hall a ha
    simp only [schemaCheck]
    rw [if_pos (by rw [List.isEmpty_iff]; exact hnil)]
  · intro e he x
    simp only [schemaCheck] at he
    by_cases hie : (required_columns.filter (fun r => decide (r ∉ keptColumnNames t))).isEmpty
    · rw [if_pos hie] at he
      exact absurd he (by simp)
    · rw [if_neg hie] at he
      injection he with h'
      rw [← h']
      exact hmem x
  · intro r hr hnull
    have hnk : r ∉ keptColumnNames t := by
      intro hk
      simp only [keptColumnNames] at hk
      obtain ⟨c, hc, hcr⟩ := List.mem_map.mp hk
      have hcf := List.mem_filter.mp hc
      have hN := hnull c hcf.1 hcr
      obtain ⟨v, hv, hvs⟩ := List.any_eq_true.mp hcf.2
      have hvn := List.all_eq_true.mp hN v hv
      cases v with
      | none => simp at hvs
      | some _ => simp at hvn
    have hx : r ∈ required_columns.filter (fun r => decide (r ∉ keptColumnNames t)) :=
      (hmem r).mpr ⟨hr, hnk⟩
    refine ⟨required_columns.filter (fun r => decide (r ∉ keptColumnNames t)), ?_, hx⟩
    simp only [schemaCheck]
    rw [if_neg (by rw [List.isEmpty_iff]; exact List.ne_nil_of_mem hx)]

/-- Claim C7, witness: a table whose `Link` column exists only with all-null
cells (and whose salary header carries surrounding whitespace that the trim
removes) fails the schema check with `Link` among the reported missing
columns. -/
theorem C7_schema_error_witness :
    ∃ e, schemaCheck
        [(" Salary (USD) ", [some "1"]), ("Location", [some "x"]), ("Job Title", [some "t"]),
         ("Company Name", [some "c"]), ("Link", [none, none])]
      = Except.error e ∧ "Link" ∈ e :=
  (C7_schema_error _).2.2 "Link" (by decide) (by decide)

end JobListings
